import Mathlib

/-!
Shallow embedding of the geoapify-go client's request-execution core:
error normalization (errors.go), the executor `Client.do` (client.go),
the retry loop and backoff computation (retry.go), URL construction
(`Client.buildURL` with `net/url.Values.Encode`), and the batch-result
response unmarshalling (map_matching.go).

Conventions:
- Go `int` status codes and `time.Duration` (int64 nanoseconds) are `Int`.
- Calls into `encoding/json.Unmarshal` are modelled as oracles (an
  `Option` result supplied as data / a function parameter): the claims
  under verification concern the control flow around those calls, not
  the JSON grammar itself.
- `float64` arithmetic in the backoff computation is modelled over `ℚ`;
  the products involved only rescale by powers of two, which `float64`
  performs exactly for the magnitudes the configuration admits.  The
  `time.Duration(jitter)` conversion truncates toward zero and is
  modelled as such.
- `rand.Float64()` is modelled as a draw `u : ℚ` with `0 ≤ u < 1`.
-/

namespace Geoapify

/-! ### errors.go -/

/-- The target struct of `json.Unmarshal` inside `newAPIError`:
`struct { Message string; Error string }` with Go zero values for
absent fields. -/
structure ErrResp where
  message : String := ""
  error : String := ""
deriving DecidableEq

/-- An HTTP response body, together with the outcomes of the two
`json.Unmarshal` calls the executor may perform on it:
`errParse` is the result of unmarshalling into the
`{message, error}` struct (`none` when `err != nil`), and `decodeOk`
records whether unmarshalling into the caller-supplied target
succeeds.  `raw` is `string(body)`. -/
structure Body where
  raw : String := ""
  errParse : Option ErrResp := none
  decodeOk : Bool := true
deriving DecidableEq

/-- `APIError` from errors.go. -/
structure APIError where
  StatusCode : Int
  Message : String := ""
  RawBody : String := ""
deriving DecidableEq

/-- `newAPIError` from errors.go: store the status code and raw body;
try to parse the body as a JSON error response, taking `message` if
non-empty, else `error` if non-empty; if the message is still empty,
fall back to the raw body text. -/
def newAPIError (statusCode : Int) (body : Body) : APIError :=
  let m0 : String :=
    match body.errParse with
    | some r => if r.message ≠ "" then r.message
                else if r.error ≠ "" then r.error
                else ""
    | none => ""
  let m1 : String := if m0 = "" then body.raw else m0
  { StatusCode := statusCode, Message := m1, RawBody := body.raw }

/-! ### client.go: the executor -/

/-- Which phase of the dispatch a generic (non-API) error came from,
matching the `fmt.Errorf` wrapping in `Client.do`. -/
inductive Phase where
  | executing
  | reading
  | decoding
deriving DecidableEq

/-- The errors `Client.do` can return: a typed `*APIError`, a
generically wrapped transport/serialization error, or the context's
cancellation error returned by the retry loop. -/
inductive CallError where
  | apiError (e : APIError)
  | wrapped (p : Phase)
  | ctxCanceled
deriving DecidableEq

/-- One physical dispatch as seen by `Client.do`: the transport call
fails, reading the body fails, or a response (status code,
`Retry-After` header value with `""` for absent, body) is obtained. -/
structure Response where
  statusCode : Int
  retryAfterHeader : String := ""
  body : Body
deriving DecidableEq

inductive FetchResult where
  | httpErr
  | readErr
  | resp (r : Response)
deriving DecidableEq

/-- The `execute` closure in `Client.do` (the no-retry path): returns
`none` for success (Go `nil` error).  `hasTarget` is `result != nil`. -/
def executeOnce (f : FetchResult) (hasTarget : Bool) : Option CallError :=
  match f with
  | .httpErr => some (.wrapped .executing)
  | .readErr => some (.wrapped .reading)
  | .resp r =>
    if r.statusCode < 200 ∨ 300 ≤ r.statusCode then
      some (.apiError (newAPIError r.statusCode r.body))
    else if hasTarget ∧ r.body.decodeOk = false then
      some (.wrapped .decoding)
    else none

/-- `isRetryable` from client.go: `statusCode == http.StatusTooManyRequests
|| statusCode >= 500`. -/
def isRetryable (statusCode : Int) : Bool :=
  statusCode == 429 || decide (500 ≤ statusCode)

/-! ### retry.go -/

/-- `retryHint` from retry.go. -/
structure retryHint where
  retryAfter : String := ""
deriving DecidableEq

/-- `retryConfig` from retry.go.  `maxRetries` is a Go `int`,
constrained to be ≥ 0 by the configuration contract, hence `Nat`;
the delays are `time.Duration` nanosecond counts. -/
structure retryConfig where
  maxRetries : Nat
  initialDelay : Int
  maxDelay : Int

/-- The closure handed to `retryConfig.do` in the retry path of
`Client.do`: from one dispatch it produces `(*retryHint, error)`.
A hint is produced exactly for retryable non-2xx statuses, carrying
the `Retry-After` header value. -/
def attemptFn (f : FetchResult) (hasTarget : Bool) :
    Option retryHint × Option CallError :=
  match f with
  | .httpErr => (none, some (.wrapped .executing))
  | .readErr => (none, some (.wrapped .reading))
  | .resp r =>
    if r.statusCode < 200 ∨ 300 ≤ r.statusCode then
      if isRetryable r.statusCode then
        (some { retryAfter := r.retryAfterHeader },
         some (.apiError (newAPIError r.statusCode r.body)))
      else
        (none, some (.apiError (newAPIError r.statusCode r.body)))
    else if hasTarget ∧ r.body.decodeOk = false then
      (none, some (.wrapped .decoding))
    else (none, none)

/-- The loop body of `retryConfig.do`, indexed by the remaining loop
iterations (`fuel`, initially `maxRetries + 1`) and the current
zero-based attempt index.  `fn k` is the outcome of the `k`-th call of
the closure; `cancel k` tells whether `ctx.Done()` wins the `select`
during the wait that follows attempt `k`.  Returns the error of the
logical call (`none` for success) paired with the number of dispatch
attempts performed. -/
def retryAux (fn : Nat → Option retryHint × Option CallError)
    (cancel : Nat → Bool) : Nat → Nat → Option CallError × Nat
  | 0, attempt => (none, attempt)
  | fuel + 1, attempt =>
    match fn attempt with
    | (_, none) => (none, attempt + 1)
    | (none, some e) => (some e, attempt + 1)
    | (some _, some e) =>
      if fuel = 0 then (some e, attempt + 1)
      else if cancel attempt then (some .ctxCanceled, attempt + 1)
      else retryAux fn cancel fuel (attempt + 1)

/-- `retryConfig.do` from retry.go: `for attempt := range maxRetries + 1`,
breaking on success, on a nil hint, or when `attempt == maxRetries`,
and returning `ctx.Err()` if cancellation wins a wait. -/
def retryDo (maxRetries : Nat) (fn : Nat → Option retryHint × Option CallError)
    (cancel : Nat → Bool) : Option CallError × Nat :=
  retryAux fn cancel (maxRetries + 1) 0

/-- `Client.do`: without a retry configuration the `execute` closure
runs exactly once; with one, the per-attempt closure is driven by
`retryConfig.do`.  `fetches k` is the `k`-th physical dispatch. -/
def clientDo (retry : Option retryConfig) (fetches : Nat → FetchResult)
    (hasTarget : Bool) (cancel : Nat → Bool) : Option CallError × Nat :=
  match retry with
  | none => (executeOnce (fetches 0) hasTarget, 1)
  | some cfg => retryDo cfg.maxRetries (fun k => attemptFn (fetches k) hasTarget) cancel

/-! ### retry.go: delay computation -/

/-- Go `strconv.Atoi`: an optional sign followed by one or more decimal
digits, within the 64-bit `int` range; `none` when `err != nil`. -/
def digitsVal (cs : List Char) : Option Nat :=
  if cs.isEmpty then none
  else
    cs.foldl (fun acc c =>
      match acc with
      | none => none
      | some n => if c.isDigit then some (n * 10 + (c.toNat - 48)) else none)
      (some 0)

def goAtoi (s : String) : Option Int :=
  match s.data with
  | '+' :: rest =>
      (digitsVal rest).bind fun n =>
        if (n : Int) ≤ 2 ^ 63 - 1 then some (n : Int) else none
  | '-' :: rest =>
      (digitsVal rest).bind fun n =>
        if (n : Int) ≤ 2 ^ 63 then some (-(n : Int)) else none
  | cs =>
      (digitsVal cs).bind fun n =>
        if (n : Int) ≤ 2 ^ 63 - 1 then some (n : Int) else none

/-- Go's `time.Duration(jitter)` conversion from `float64`: truncation
toward zero (floor for non-negative values, ceiling for negative). -/
def ratTruncToInt (q : ℚ) : Int :=
  if 0 ≤ q then ⌊q⌋ else ⌈q⌉

theorem ratTruncToInt_of_nonneg {q : ℚ} (h : 0 ≤ q) : ratTruncToInt q = ⌊q⌋ := by
  simp [ratTruncToInt, h]

/-- Two's-complement wraparound of Go's 64-bit integer arithmetic. -/
def wrapInt64 (x : Int) : Int :=
  (x + 2 ^ 63) % 2 ^ 64 - 2 ^ 63

theorem wrapInt64_of_bounds {x : Int} (h1 : -(2 ^ 63) ≤ x) (h2 : x < 2 ^ 63) :
    wrapInt64 x = x := by
  unfold wrapInt64
  rw [Int.emod_eq_of_lt (by omega) (by omega)]
  omega

/-! ### The float64 arithmetic of the backoff computation

The jitter computation in retry.go runs in `float64`.  It is modelled
with exact rationals plus an explicit rounding function `fl`:
round-to-nearest with 53 significand bits and ties to even, the
binary64 rounding, covering the format's normal range.  The exponent
limits of the format do not reach the results proved below: overflow
of the uncapped backoff product only occurs far above the (finite)
cap, where Go's `+Inf` and the exact product compare identically
against it (`initialDelay > 0` by the configuration contract keeps
`0 * Inf` out), and the quantities rounded here are far from the
subnormal range. -/

/-- Round to nearest integer, ties to even: the rounding of IEEE-754
binary arithmetic. -/
def rne (x : ℚ) : ℤ :=
  if x - ⌊x⌋ < 1 / 2 then ⌊x⌋
  else if 1 / 2 < x - ⌊x⌋ then ⌊x⌋ + 1
  else if ⌊x⌋ % 2 = 0 then ⌊x⌋ else ⌊x⌋ + 1

theorem rne_intCast (n : ℤ) : rne (n : ℚ) = n := by
  simp [rne]

theorem rne_le_add (x : ℚ) : (rne x : ℚ) ≤ x + 1 / 2 := by
  have hf := Int.floor_le x
  have hf2 := Int.lt_floor_add_one x
  unfold rne
  split_ifs <;> push_cast <;> linarith

theorem le_rne (x : ℚ) : x - 1 / 2 ≤ (rne x : ℚ) := by
  have hf := Int.floor_le x
  have hf2 := Int.lt_floor_add_one x
  unfold rne
  split_ifs <;> push_cast <;> linarith

theorem rne_mono {x y : ℚ} (h : x ≤ y) : rne x ≤ rne y := by
  have hf : ⌊x⌋ ≤ ⌊y⌋ := Int.floor_mono h
  rcases lt_or_eq_of_le hf with hlt | heq
  · have h1 : rne x ≤ ⌊x⌋ + 1 := by unfold rne; split_ifs <;> omega
    have h2 : ⌊y⌋ ≤ rne y := by unfold rne; split_ifs <;> omega
    omega
  · have hxy : x - ⌊x⌋ ≤ y - ⌊y⌋ := by
      rw [← heq]
      linarith
    unfold rne
    rw [← heq]
    split_ifs <;> first | omega | linarith

/-- A positive rational rounded to 53 significant bits (nearest, ties
to even). -/
def flPos (q : ℚ) : ℚ :=
  (rne (q / 2 ^ (Int.log 2 q - 52)) : ℚ) * 2 ^ (Int.log 2 q - 52)

/-- float64 rounding of an exact (rational) value. -/
def fl (q : ℚ) : ℚ :=
  if q = 0 then 0 else if 0 < q then flPos q else -flPos (-q)

theorem two_cast_eq : ((2 : ℕ) : ℚ) = (2 : ℚ) := by norm_num

theorem flPos_scaled_lb {q : ℚ} (hq : 0 < q) :
    (2 : ℚ) ^ (52 : ℤ) ≤ q / 2 ^ (Int.log 2 q - 52) := by
  have hlog : (2 : ℚ) ^ (Int.log 2 q) ≤ q := by
    have h := Int.zpow_log_le_self (b := 2) one_lt_two hq
    rwa [two_cast_eq] at h
  rw [le_div_iff₀ (by positivity)]
  calc (2:ℚ) ^ (52:ℤ) * 2 ^ (Int.log 2 q - 52)
      = 2 ^ (Int.log 2 q) := by
        rw [← zpow_add₀ (two_ne_zero (α := ℚ))]
        congr 1
        omega
    _ ≤ q := hlog

theorem flPos_scaled_ub {q : ℚ} (hq : 0 < q) :
    q / 2 ^ (Int.log 2 q - 52) < (2 : ℚ) ^ (53 : ℤ) := by
  have hlog : q < (2 : ℚ) ^ (Int.log 2 q + 1) := by
    have h := Int.lt_zpow_succ_log_self (b := 2) one_lt_two q
    rwa [two_cast_eq] at h
  rw [div_lt_iff₀ (by positivity)]
  calc q < 2 ^ (Int.log 2 q + 1) := hlog
    _ = (2:ℚ) ^ (53:ℤ) * 2 ^ (Int.log 2 q - 52) := by
        rw [← zpow_add₀ (two_ne_zero (α := ℚ))]
        congr 1
        omega

theorem le_flPos {q : ℚ} (hq : 0 < q) :
    (2 : ℚ) ^ (Int.log 2 q) ≤ flPos q := by
  have h1 := flPos_scaled_lb hq
  have h2 := le_rne (q / 2 ^ (Int.log 2 q - 52))
  have h3 : (2:ℚ) ^ (52:ℤ) - 1 / 2 ≤ (rne (q / 2 ^ (Int.log 2 q - 52)) : ℚ) := by linarith
  have h4 : (2:ℚ) ^ (52:ℤ) ≤ (rne (q / 2 ^ (Int.log 2 q - 52)) : ℚ) := by
    have h5 : (2:ℤ) ^ (52:ℕ) ≤ rne (q / 2 ^ (Int.log 2 q - 52)) := by
      by_contra hcon
      push_neg at hcon
      have h6 : (rne (q / 2 ^ (Int.log 2 q - 52)) : ℚ) ≤ ((2:ℤ)^(52:ℕ) : ℚ) - 1 := by
        exact_mod_cast Int.le_sub_one_of_lt hcon
      push_cast at h6
      have h52 : ((2:ℚ))^(52:ℤ) = (2:ℚ)^(52:ℕ) := zpow_natCast 2 52
      linarith
    calc (2:ℚ) ^ (52:ℤ) = ((2:ℤ)^(52:ℕ) : ℚ) := by push_cast; exact zpow_natCast 2 52
      _ ≤ _ := by exact_mod_cast h5
  calc (2:ℚ) ^ (Int.log 2 q)
      = 2 ^ (52:ℤ) * 2 ^ (Int.log 2 q - 52) := by
        rw [← zpow_add₀ (two_ne_zero (α := ℚ))]
        congr 1
        omega
    _ ≤ (rne (q / 2 ^ (Int.log 2 q - 52)) : ℚ) * 2 ^ (Int.log 2 q - 52) := by
        apply mul_le_mul_of_nonneg_right h4 (by positivity)
    _ = flPos q := rfl

theorem flPos_le {q : ℚ} (hq : 0 < q) :
    flPos q ≤ (2 : ℚ) ^ (Int.log 2 q + 1) := by
  have h1 := flPos_scaled_ub hq
  have h2 := rne_le_add (q / 2 ^ (Int.log 2 q - 52))
  have h4 : (rne (q / 2 ^ (Int.log 2 q - 52)) : ℚ) ≤ (2:ℚ) ^ (53:ℤ) := by
    have h5 : rne (q / 2 ^ (Int.log 2 q - 52)) ≤ (2:ℤ) ^ (53:ℕ) := by
      by_contra hcon
      push_neg at hcon
      have h6 : ((2:ℤ)^(53:ℕ) : ℚ) + 1 ≤ (rne (q / 2 ^ (Int.log 2 q - 52)) : ℚ) := by
        exact_mod_cast Int.add_one_le_of_lt hcon
      push_cast at h6
      have h53 : ((2:ℚ))^(53:ℤ) = (2:ℚ)^(53:ℕ) := zpow_natCast 2 53
      linarith
    calc (rne (q / 2 ^ (Int.log 2 q - 52)) : ℚ) ≤ ((2:ℤ)^(53:ℕ) : ℚ) := by exact_mod_cast h5
      _ = (2:ℚ) ^ (53:ℤ) := by push_cast; exact (zpow_natCast 2 53).symm
  calc flPos q = (rne (q / 2 ^ (Int.log 2 q - 52)) : ℚ) * 2 ^ (Int.log 2 q - 52) := rfl
    _ ≤ (2:ℚ) ^ (53:ℤ) * 2 ^ (Int.log 2 q - 52) := by
        apply mul_le_mul_of_nonneg_right h4 (by positivity)
    _ = 2 ^ (Int.log 2 q + 1) := by
        rw [← zpow_add₀ (two_ne_zero (α := ℚ))]
        congr 1
        omega

theorem flPos_nonneg {q : ℚ} (hq : 0 < q) : 0 ≤ flPos q := by
  have h := le_flPos hq
  have h2 : (0:ℚ) < 2 ^ (Int.log 2 q) := by positivity
  linarith

theorem fl_zero : fl 0 = 0 := by simp [fl]

theorem fl_nonneg {q : ℚ} (hq : 0 ≤ q) : 0 ≤ fl q := by
  rcases eq_or_lt_of_le hq with h | h
  · rw [← h, fl_zero]
  · rw [fl, if_neg (ne_of_gt h), if_pos h]
    exact flPos_nonneg h

/-- float64 rounding is monotone. -/
theorem fl_mono {x y : ℚ} (hx : 0 ≤ x) (hxy : x ≤ y) : fl x ≤ fl y := by
  rcases eq_or_lt_of_le hx with h0 | h0
  · rw [← h0, fl_zero]
    exact fl_nonneg (le_trans hx hxy)
  · have hy : 0 < y := lt_of_lt_of_le h0 hxy
    rw [fl, if_neg (ne_of_gt h0), if_pos h0, fl, if_neg (ne_of_gt hy), if_pos hy]
    have hlog : Int.log 2 x ≤ Int.log 2 y := Int.log_mono_right h0 hxy
    rcases lt_or_eq_of_le hlog with hlt | heq
    · calc flPos x ≤ (2:ℚ) ^ (Int.log 2 x + 1) := flPos_le h0
        _ ≤ (2:ℚ) ^ (Int.log 2 y) := zpow_le_zpow_right₀ one_le_two (by omega)
        _ ≤ flPos y := le_flPos hy
    · unfold flPos
      rw [← heq]
      have hdiv : x / 2 ^ (Int.log 2 x - 52) ≤ y / 2 ^ (Int.log 2 x - 52) := by
        gcongr
      have hr := rne_mono hdiv
      exact mul_le_mul_of_nonneg_right (by exact_mod_cast hr) (by positivity)

/-- float64 rounding fixes every value representable with a 53-bit
significand; the arguments rounded in the theorems below all are, so
no half-ulp error bound is needed. -/
theorem fl_eq_self {n s : ℤ} (hn0 : 0 ≤ n) (hn : n < 2 ^ 53) :
    fl ((n : ℚ) * 2 ^ s) = (n : ℚ) * 2 ^ s := by
  rcases eq_or_lt_of_le hn0 with h0 | h0
  · rw [← h0]
    simp [fl_zero]
  · have hx : (0:ℚ) < (n : ℚ) * 2 ^ s := by positivity
    rw [fl, if_neg (ne_of_gt hx), if_pos hx]
    have hlogle : Int.log 2 ((n : ℚ) * 2 ^ s) ≤ s + 52 := by
      have hlt : (n : ℚ) * 2 ^ s < ((2:ℕ) : ℚ) ^ (s + 53) := by
        rw [two_cast_eq, zpow_add₀ (two_ne_zero (α := ℚ))]
        have h2 : ((n:ℚ)) < 2 ^ (53:ℤ) := by
          have h' : ((n:ℚ)) < ((2^53 : ℤ) : ℚ) := by exact_mod_cast hn
          have h'' : ((2^53 : ℤ) : ℚ) = (2:ℚ) ^ (53:ℤ) := by norm_num
          rw [← h'']
          exact h'
        have hp : (0:ℚ) < 2 ^ s := by positivity
        calc (n:ℚ) * 2 ^ s < 2 ^ (53:ℤ) * 2 ^ s := by
              exact mul_lt_mul_of_pos_right h2 hp
          _ = 2 ^ s * 2 ^ (53:ℤ) := mul_comm _ _
      have h3 := (Int.lt_zpow_iff_log_lt one_lt_two hx).mp hlt
      omega
    set e : ℤ := Int.log 2 ((n : ℚ) * 2 ^ s) - 52 with he
    have hse : 0 ≤ s - e := by omega
    have hz : (n : ℚ) * 2 ^ s / 2 ^ e = ((n * 2 ^ (s - e).toNat : ℤ) : ℚ) := by
      rw [div_eq_iff (by positivity : (2:ℚ) ^ e ≠ 0)]
      push_cast
      rw [← zpow_natCast (2:ℚ) (s - e).toNat, Int.toNat_of_nonneg hse,
        mul_assoc, ← zpow_add₀ (two_ne_zero (α := ℚ))]
      congr 2
      omega
    unfold flPos
    rw [← he, hz, rne_intCast, ← hz]
    exact div_mul_cancel₀ _ (by positivity)

theorem fl_intCast {n : ℤ} (hn0 : 0 ≤ n) (hn : n < 2 ^ 53) : fl (n : ℚ) = n := by
  have h := fl_eq_self (s := 0) hn0 hn
  simpa using h

theorem fl_one : fl 1 = 1 := by
  have h := fl_intCast (n := 1) (by norm_num) (by norm_num)
  simpa using h

theorem fl_half : fl (1 / 2) = 1 / 2 := by
  have h := fl_eq_self (n := 1) (s := -1) (by norm_num) (by norm_num)
  have h2 : ((1:ℤ) : ℚ) * 2 ^ (-1 : ℤ) = 1 / 2 := by norm_num
  rwa [h2] at h

/-- Halving a `rand.Float64` output (a 53-bit-numerator dyadic in
`[0,1)`) is exact in float64. -/
theorem fl_u_half {m : ℕ} (hm : m < 2 ^ 53) :
    fl ((m : ℚ) / 2 ^ 53 * (1 / 2)) = (m : ℚ) / 2 ^ 53 * (1 / 2) := by
  have hv : (m : ℚ) / 2 ^ 53 * (1 / 2) = ((m : ℤ) : ℚ) * 2 ^ (-54 : ℤ) := by
    have h54 : (2:ℚ) ^ (-54 : ℤ) = (2 ^ 54 : ℚ)⁻¹ := by norm_num
    rw [h54]
    push_cast
    field_simp
    ring_nf
    exact Or.inl trivial
  rw [hv]
  exact fl_eq_self (by positivity) (by exact_mod_cast hm)

/-- The exponential-backoff-with-jitter branch of `calculateDelay`:
`backoff = float64(initialDelay) * math.Pow(2, attempt)`, capped at
`float64(maxDelay)`, then scaled by `0.5 + u*0.5` and converted to
`time.Duration`.  Each float64 operation rounds via `fl`; the
power-of-two product is kept exact: its float rounding either is exact
or overflows to `+Inf`, and both compare against the finite cap the
same way the exact product does (for `initialDelay > 0`, per the
configuration contract). -/
def expBackoffDelay (r : retryConfig) (attempt : Nat) (u : ℚ) : Int :=
  let backoff0 : ℚ := fl (r.initialDelay : ℚ) * 2 ^ attempt
  let backoff : ℚ := if backoff0 > fl (r.maxDelay : ℚ) then fl (r.maxDelay : ℚ) else backoff0
  let jitter : ℚ := fl (backoff * fl (1 / 2 + fl (u * (1 / 2))))
  ratTruncToInt jitter

/-- `retryConfig.calculateDelay`: honor a non-empty `Retry-After` hint
that `strconv.Atoi` accepts — `time.Duration(seconds) * time.Second`
is int64 arithmetic and wraps — otherwise fall through to exponential
backoff with jitter. -/
def calculateDelay (r : retryConfig) (attempt : Nat) (hint : Option retryHint)
    (u : ℚ) : Int :=
  match hint with
  | some h =>
    if h.retryAfter ≠ "" then
      match goAtoi h.retryAfter with
      | some seconds => wrapInt64 (seconds * 1000000000)
      | none => expBackoffDelay r attempt u
    else expBackoffDelay r attempt u
  | none => expBackoffDelay r attempt u

/-! ### client.go: URL construction (`buildURL` with `net/url.Values`) -/

/-- Bytewise lexicographic `≤` on character lists, matching Go's string
comparison used by `sort.Strings` (for UTF-8 data, bytewise order
coincides with codepoint order). -/
def charListLe : List Char → List Char → Bool
  | [], _ => true
  | _ :: _, [] => false
  | a :: as, b :: bs =>
    if a < b then true
    else if b < a then false
    else charListLe as bs

/-- Go `url.QueryEscape` escapes every byte except ASCII alphanumerics
and `-_.~`, mapping space to `+` and the rest to uppercase
percent-hex.  Modelled per character; multi-byte runes, which Go
escapes byte by byte, do not occur in the inputs under study. -/
def queryUnescapedChar (c : Char) : Bool :=
  c.isAlpha || c.isDigit || c = '-' || c = '_' || c = '.' || c = '~'

def hexUpper (n : Nat) : Char :=
  if n < 10 then Char.ofNat (48 + n) else Char.ofNat (55 + n)

def queryEscapeChar (c : Char) : List Char :=
  if queryUnescapedChar c then [c]
  else if c = ' ' then ['+']
  else ['%', hexUpper (c.toNat / 16), hexUpper (c.toNat % 16)]

def queryEscape (s : String) : String :=
  ⟨s.data.flatMap queryEscapeChar⟩

/-- `net/url.Values`: a map from key to list of values, modelled as an
association list; map semantics make the entry order irrelevant and
the keys pairwise distinct. -/
structure Values where
  entries : List (String × List String)

/-- `Values.Set(key, value)`: replace the key's values with the
one-element list. -/
def Values.set (v : Values) (key value : String) : Values :=
  ⟨(key, [value]) :: v.entries.filter (fun e => e.1 ≠ key)⟩

/-- The key ordering used by `Values.Encode` (`sort.Strings` over the
map's keys).  Map keys are pairwise distinct, so the sorted key
sequence — and hence `Encode`'s output — is uniquely determined, and
insertion sort computes it. -/
def keyLe (a b : String × List String) : Prop :=
  charListLe a.1.data b.1.data = true

instance : DecidableRel keyLe := fun a b => by
  unfold keyLe; infer_instance

def Values.sortedEntries (v : Values) : List (String × List String) :=
  v.entries.insertionSort keyLe

/-- The `(key, value)` pairs in the order `Values.Encode` emits them:
keys sorted, each key's values in list order. -/
def flatPairs (es : List (String × List String)) : List (String × String) :=
  es.flatMap fun e => e.2.map fun w => (e.1, w)

/-- `Values.Encode`: `key=value` pairs joined by `&`, keys sorted, both
key and value query-escaped. -/
def Values.encode (v : Values) : String :=
  String.intercalate "&"
    ((flatPairs v.sortedEntries).map fun p => queryEscape p.1 ++ "=" ++ queryEscape p.2)

/-- `Client.buildURL`: substitute the empty map for nil parameters, set
`apiKey` to the client's credential, and format
`baseURL + path + "?" + params.Encode()`. -/
def buildURL (apiKey baseURL path : String) (params : Option Values) : String :=
  let ps := params.getD ⟨[]⟩
  let ps := ps.set "apiKey" apiKey
  baseURL ++ path ++ "?" ++ ps.encode

/-! ### map_matching.go: batch-result response unmarshalling -/

/-- Stand-in for the `Address` response struct; its (many) fields are
irrelevant to the unmarshalling control flow under study. -/
structure Address where
  formatted : String
deriving DecidableEq

/-- `bytes_trimLeft` from map_matching.go: drop leading space, tab,
newline and carriage-return bytes, returning nil when the input is all
whitespace. -/
def bytes_trimLeft : List Nat → List Nat
  | [] => []
  | b :: rest =>
    if b = 32 ∨ b = 9 ∨ b = 10 ∨ b = 13 then bytes_trimLeft rest
    else b :: rest

/-- `BatchResultResponse` from map_matching.go.  `Results` is a Go
slice whose `nil` zero value is `none`. -/
structure BatchResultResponse where
  ID : String := ""
  Status : String := ""
  Results : Option (List Address) := none
  Raw : List Nat := []
deriving DecidableEq

/-- The branch condition of `UnmarshalJSON`:
`len(trimmed) > 0 && trimmed[0] == '['` (byte 91). -/
def isArrayPayload (data : List Nat) : Bool :=
  match bytes_trimLeft data with
  | b :: _ => b == 91
  | [] => false

/-- `BatchResultResponse.UnmarshalJSON`: store the raw payload; if the
first byte after trimming leading whitespace is `'['`, decode the
payload into `Results`, otherwise decode it as an object into `ID` and
`Status`.  The two `json.Unmarshal` calls are the oracles `arrayDec`
and `objDec` (`none` = decode error, which Go propagates). -/
def BatchResultResponse.UnmarshalJSON
    (arrayDec : List Nat → Option (List Address))
    (objDec : List Nat → Option (String × String))
    (r : BatchResultResponse) (data : List Nat) :
    Except Unit BatchResultResponse :=
  let r := { r with Raw := data }
  if isArrayPayload data then
    match arrayDec data with
    | some xs => .ok { r with Results := some xs }
    | none => .error ()
  else
    match objDec data with
    | some (id, status) => .ok { r with ID := id, Status := status }
    | none => .error ()

/-! ## Claim theorems -/

/-- C1: for every HTTP response received by the executor, a status in
[200,300) is success (with the target decoded when supplied and its
decode succeeding), and any status outside [200,300) yields an
`APIError` — the sole error constructor used — whose `StatusCode` is
the response status and whose `RawBody` is the response body; the
per-attempt closure of the retry path classifies errors identically. -/
theorem executor_status_classification (r : Response) (t : Bool) :
    ((200 ≤ r.statusCode ∧ r.statusCode < 300) →
      (t = true → r.body.decodeOk = true) →
      executeOnce (.resp r) t = none ∧ (attemptFn (.resp r) t).2 = none)
    ∧ ((r.statusCode < 200 ∨ 300 ≤ r.statusCode) →
      executeOnce (.resp r) t =
          some (.apiError { StatusCode := r.statusCode,
                            Message := (newAPIError r.statusCode r.body).Message,
                            RawBody := r.body.raw })
        ∧ (attemptFn (.resp r) t).2 = executeOnce (.resp r) t) := by
  constructor
  · intro hst hdec
    have hout : ¬(r.statusCode < 200 ∨ 300 ≤ r.statusCode) := by omega
    cases t with
    | false => simp [executeOnce, attemptFn, hout]
    | true => simp [executeOnce, attemptFn, hout, hdec rfl]
  · intro hst
    refine ⟨?_, ?_⟩
    · simp only [executeOnce, if_pos hst]
      rfl
    · simp only [executeOnce, attemptFn, if_pos hst]
      cases isRetryable r.statusCode <;> simp

theorem executor_status_classification_witness :
    (executeOnce (.resp { statusCode := 204, body := {} }) false = none
      ∧ (attemptFn (.resp { statusCode := 204, body := {} }) false).2 = none)
    ∧ (executeOnce (.resp { statusCode := 404, body := { raw := "nope" } }) true =
          some (.apiError { StatusCode := 404,
                            Message := (newAPIError 404 { raw := "nope" }).Message,
                            RawBody := "nope" })
        ∧ (attemptFn (.resp { statusCode := 404, body := { raw := "nope" } }) true).2 =
            executeOnce (.resp { statusCode := 404, body := { raw := "nope" } }) true) :=
  ⟨(executor_status_classification { statusCode := 204, body := {} } false).1
      (by decide) (fun _ => rfl),
   (executor_status_classification { statusCode := 404, body := { raw := "nope" } } true).2
      (by decide)⟩

/-- C2: the `Message` of a constructed `APIError` follows the priority
order: the JSON `message` field when the body parses and that field is
non-empty; else the JSON `error` field when non-empty; else the raw
body text (also when the body does not parse as JSON at all). -/
theorem apiError_message_priority (st : Int) (b : Body) :
    (∀ r, b.errParse = some r → r.message ≠ "" →
        (newAPIError st b).Message = r.message)
    ∧ (∀ r, b.errParse = some r → r.message = "" → r.error ≠ "" →
        (newAPIError st b).Message = r.error)
    ∧ (∀ r, b.errParse = some r → r.message = "" → r.error = "" →
        (newAPIError st b).Message = b.raw)
    ∧ (b.errParse = none → (newAPIError st b).Message = b.raw) := by
  refine ⟨?_, ?_, ?_, ?_⟩
  · intro r hr hm
    simp [newAPIError, hr, hm]
  · intro r hr hm he
    simp [newAPIError, hr, hm, he]
  · intro r hr hm he
    simp [newAPIError, hr, hm, he]
  · intro hn
    simp [newAPIError, hn]

theorem apiError_message_priority_witness :
    (newAPIError 401 { raw := "json body with message field",
                       errParse := some { message := "Invalid key" } }).Message
        = "Invalid key"
    ∧ (newAPIError 500 { raw := "json body with error field",
                         errParse := some { error := "boom" } }).Message = "boom"
    ∧ (newAPIError 502 { raw := "empty json object",
                         errParse := some {} }).Message = "empty json object"
    ∧ (newAPIError 503 { raw := "oops", errParse := none }).Message = "oops" :=
  ⟨(apiError_message_priority 401 _).1 _ rfl (by decide),
   (apiError_message_priority 500 _).2.1 _ rfl rfl (by decide),
   (apiError_message_priority 502 _).2.2.1 _ rfl rfl rfl,
   (apiError_message_priority 503 _).2.2.2 rfl⟩

/-- Whether a closure outcome makes the retry loop continue: an error
was returned together with a (non-nil) retry hint. -/
def isRetryFail (o : Option retryHint × Option CallError) : Bool :=
  o.1.isSome && o.2.isSome

/-- Number of consecutive retryable failures `fn` produces starting at
index `i`, counted up to the bound given by the second argument. -/
def consecFrom (fn : Nat → Option retryHint × Option CallError) :
    Nat → Nat → Nat
  | _, 0 => 0
  | i, m + 1 => if isRetryFail (fn i) then consecFrom fn (i + 1) m + 1 else 0

theorem retryAux_count (fn : Nat → Option retryHint × Option CallError)
    (cancel : Nat → Bool) (hc : ∀ k, cancel k = false) :
    ∀ (fuel i : Nat),
      (retryAux fn cancel (fuel + 1) i).2 =
        i + min (consecFrom fn i (fuel + 1)) fuel + 1 := by
  intro fuel
  induction fuel with
  | zero =>
    intro i
    rcases hfn : fn i with ⟨h1, h2⟩
    rcases h1 <;> rcases h2 <;> simp [retryAux, hfn, consecFrom, isRetryFail]
  | succ f ih =>
    intro i
    rcases hfn : fn i with ⟨h1, h2⟩
    rcases h1 with _ | hv <;> rcases h2 with _ | ev
    · simp [retryAux, hfn, consecFrom, isRetryFail]
    · simp [retryAux, hfn, consecFrom, isRetryFail]
    · simp [retryAux, hfn, consecFrom, isRetryFail]
    · have hstep : (retryAux fn cancel (f + 1 + 1) i).2 =
          (retryAux fn cancel (f + 1) (i + 1)).2 := by
        simp [retryAux, hfn, hc i]
      rw [hstep, ih (i + 1)]
      have hcf : consecFrom fn i (f + 1 + 1) = consecFrom fn (i + 1) (f + 1) + 1 := by
        simp [consecFrom, isRetryFail, hfn]
      rw [hcf]
      omega

/-- C3: with cancellation never firing, the number of dispatch attempts
of one logical call through the retry loop is `1 + min(observed
consecutive retryable failures, maxRetries)`; without a retry
configuration, `Client.do` makes exactly one attempt. -/
theorem retry_attempt_count (cfg : retryConfig)
    (fn : Nat → Option retryHint × Option CallError) (cancel : Nat → Bool)
    (hc : ∀ k, cancel k = false) (fetches : Nat → FetchResult) (t : Bool) :
    (retryDo cfg.maxRetries fn cancel).2 =
        1 + min (consecFrom fn 0 (cfg.maxRetries + 1)) cfg.maxRetries
    ∧ (clientDo none fetches t cancel).2 = 1 := by
  refine ⟨?_, rfl⟩
  have h := retryAux_count fn cancel hc cfg.maxRetries 0
  rw [retryDo, h]
  omega

theorem retry_attempt_count_witness :
    (retryDo 2 (fun _ => (some { retryAfter := "" }, some (.wrapped .executing)))
        (fun _ => false)).2 = 3
    ∧ (clientDo none (fun _ => .resp { statusCode := 500, body := {} }) true
        (fun _ => false)).2 = 1 := by
  have h := retry_attempt_count ⟨2, 1, 1⟩
      (fun _ => (some { retryAfter := "" }, some (.wrapped .executing)))
      (fun _ => false) (fun _ => rfl)
      (fun _ => .resp { statusCode := 500, body := {} }) true
  exact ⟨by rw [h.1]; decide, h.2⟩

theorem retryAux_cancel_aux (fn : Nat → Option retryHint × Option CallError)
    (cancel : Nat → Bool) :
    ∀ (k i fuel : Nat), k + 1 < fuel →
      (∀ j, j ≤ k → isRetryFail (fn (i + j)) = true) →
      (∀ j, j < k → cancel (i + j) = false) →
      cancel (i + k) = true →
      retryAux fn cancel fuel i = (some .ctxCanceled, i + k + 1) := by
  intro k
  induction k with
  | zero =>
    intro i fuel hf hr _ hk
    obtain ⟨f, rfl⟩ : ∃ f, fuel = f + 1 := ⟨fuel - 1, by omega⟩
    have h0 := hr 0 (Nat.le_refl 0)
    rw [Nat.add_zero] at h0
    rcases hfn : fn i with ⟨h1, h2⟩
    rw [hfn] at h0
    rcases h1 with _ | hv <;> rcases h2 with _ | ev <;>
      simp [isRetryFail] at h0
    have hf0 : f ≠ 0 := by omega
    have hki : cancel i = true := by simpa using hk
    simp [retryAux, hfn, hf0, hki]
  | succ k ih =>
    intro i fuel hf hr hc hk
    obtain ⟨f, rfl⟩ : ∃ f, fuel = f + 1 := ⟨fuel - 1, by omega⟩
    have h0 := hr 0 (Nat.zero_le _)
    rw [Nat.add_zero] at h0
    rcases hfn : fn i with ⟨h1, h2⟩
    rw [hfn] at h0
    rcases h1 with _ | hv <;> rcases h2 with _ | ev <;>
      simp [isRetryFail] at h0
    have hf0 : f ≠ 0 := by omega
    have hci : cancel i = false := by
      have := hc 0 (Nat.succ_pos k)
      simpa using this
    have htail : retryAux fn cancel f (i + 1) = (some .ctxCanceled, (i + 1) + k + 1) := by
      refine ih (i + 1) f (by omega) ?_ ?_ ?_
      · intro j hj
        have := hr (j + 1) (Nat.succ_le_succ hj)
        simpa [Nat.add_assoc, Nat.add_comm 1 j] using this
      · intro j hj
        have := hc (j + 1) (Nat.succ_lt_succ hj)
        simpa [Nat.add_assoc, Nat.add_comm 1 j] using this
      · have : i + (k + 1) = i + 1 + k := by omega
        rw [← this]
        exact hk
    have : retryAux fn cancel (f + 1) i = retryAux fn cancel f (i + 1) := by
      simp [retryAux, hfn, hf0, hci]
    rw [this, htail]
    have : i + 1 + k + 1 = i + (k + 1) + 1 := by omega
    rw [this]

/-- C9: if the cancellation signal wins the wait after attempt `k`
(each earlier wait undisturbed, every attempt so far a retryable
failure, retry budget remaining), the logical call returns the
context's cancellation error — not an `APIError`, the last HTTP error
being discarded — and no further dispatch attempt is made. -/
theorem retry_cancellation (N : Nat)
    (fn : Nat → Option retryHint × Option CallError) (cancel : Nat → Bool)
    (k : Nat) (hk : k < N)
    (hr : ∀ j, j ≤ k → isRetryFail (fn j) = true)
    (hc : ∀ j, j < k → cancel j = false)
    (hfire : cancel k = true) :
    retryDo N fn cancel = (some .ctxCanceled, k + 1) := by
  have h := retryAux_cancel_aux fn cancel k 0 (N + 1) (by omega)
      (by simpa using hr) (by simpa using hc) (by simpa using hfire)
  simpa [retryDo] using h

theorem retry_cancellation_witness :
    retryDo 2 (fun _ => (some { retryAfter := "" }, some (.wrapped .executing)))
        (fun j => j == 0) = (some .ctxCanceled, 1) :=
  retry_cancellation 2 _ _ 0 (by decide) (fun _ _ => rfl)
    (fun j hj => absurd hj (Nat.not_lt_zero j)) rfl

/-- C4 counterexample: status 600 is classified retryable by the code,
although it is neither 429 nor a 5xx status (5xx meaning 500–599). -/
theorem isRetryable_600_not_5xx :
    isRetryable 600 = true
    ∧ ¬((600 : Int) = 429 ∨ (500 ≤ (600 : Int) ∧ (600 : Int) < 600)) := by
  refine ⟨rfl, ?_⟩
  decide

/-- C4 amended: a failed dispatch is classified retryable iff the
status is 429 or at least 500 (thus including non-standard statuses
above 599); any failure without a retry hint — a non-retryable status,
or a transport/body-read error — terminates the logical call after
exactly one attempt, surfacing the original error, regardless of the
remaining retry budget. -/
theorem retryable_classification :
    (∀ s : Int, isRetryable s = true ↔ (s = 429 ∨ 500 ≤ s))
    ∧ (∀ (N : Nat) (fn : Nat → Option retryHint × Option CallError)
        (cancel : Nat → Bool) (e : CallError),
        fn 0 = (none, some e) → retryDo N fn cancel = (some e, 1))
    ∧ (∀ (r : Response) (t : Bool),
        (r.statusCode < 200 ∨ 300 ≤ r.statusCode) →
        isRetryable r.statusCode = false →
        attemptFn (.resp r) t =
          (none, some (.apiError (newAPIError r.statusCode r.body))))
    ∧ (∀ t : Bool,
        attemptFn .httpErr t = (none, some (.wrapped .executing))
        ∧ attemptFn .readErr t = (none, some (.wrapped .reading))) := by
  refine ⟨?_, ?_, ?_, fun _ => ⟨rfl, rfl⟩⟩
  · intro s
    simp [isRetryable]
  · intro N fn cancel e h
    simp [retryDo, retryAux, h]
  · intro r t hst hnr
    simp [attemptFn, hst, hnr]

theorem retryable_classification_witness :
    (isRetryable 429 = true ↔ ((429 : Int) = 429 ∨ 500 ≤ (429 : Int)))
    ∧ retryDo 5
        (fun _ => attemptFn (.resp { statusCode := 400, body := { raw := "bad" } }) true)
        (fun _ => false)
        = (some (.apiError (newAPIError 400 { raw := "bad" })), 1)
    ∧ attemptFn (.resp { statusCode := 400, body := { raw := "bad" } }) true
        = (none, some (.apiError (newAPIError 400 { raw := "bad" }))) := by
  refine ⟨retryable_classification.1 429, ?_, ?_⟩
  · exact retryable_classification.2.1 5 _ _ _ (by decide)
  · exact retryable_classification.2.2.1 { statusCode := 400, body := { raw := "bad" } }
      true (by decide) (by decide)

/-- C5 counterexample: the hint `"-1"` does not parse as a
*non-negative* integer, yet the code does not fall through to the
exponential backoff: `strconv.Atoi` accepts it and the delay becomes
minus one second. -/
theorem retryAfter_negative_no_fallthrough :
    goAtoi "-1" = some (-1)
    ∧ calculateDelay ⟨0, 1000000000, 1000000000⟩ 0
        (some { retryAfter := "-1" }) 0 = -1000000000
    ∧ expBackoffDelay ⟨0, 1000000000, 1000000000⟩ 0 0 = 500000000
    ∧ (-1000000000 : Int) ≠ 500000000 := by
  have hatoi : goAtoi "-1" = some (-1) := by decide
  refine ⟨hatoi, ?_, ?_, by decide⟩
  · have hne : ("-1" : String) ≠ "" := by decide
    simp only [calculateDelay, hne, hatoi, ne_eq, not_false_iff, if_true]
    rw [show ((-1 : Int) * 1000000000) = -1000000000 by norm_num]
    exact wrapInt64_of_bounds (by norm_num) (by norm_num)
  · show ratTruncToInt (fl ((if fl (((1000000000 : Int)) : ℚ) * 2 ^ (0 : Nat) >
        fl (((1000000000 : Int)) : ℚ) then fl (((1000000000 : Int)) : ℚ)
        else fl (((1000000000 : Int)) : ℚ) * 2 ^ (0 : Nat)) *
        fl (1 / 2 + fl (0 * (1 / 2))))) = 500000000
    have hfD : fl (((1000000000 : Int)) : ℚ) = ((1000000000 : Int) : ℚ) :=
      fl_intCast (by norm_num) (by norm_num)
    rw [hfD]
    rw [show ((0 : ℚ)) * (1 / 2) = 0 by ring, fl_zero, add_zero, fl_half,
      pow_zero, mul_one, if_neg (lt_irrefl _)]
    rw [show ((1000000000 : Int) : ℚ) * (1 / 2) = (((500000000 : Int)) : ℚ) by norm_num,
      fl_intCast (by norm_num) (by norm_num),
      ratTruncToInt_of_nonneg (by positivity)]
    rw [Int.floor_intCast]

/-- C5 amended: a non-empty retry-after hint accepted by
`strconv.Atoi` — including negative values — yields a delay of exactly
that many seconds under the int64 wraparound of
`time.Duration(seconds) * time.Second` (exactly that many seconds
whenever the product fits in int64), with neither jitter nor
exponential backoff applied; only hints that `Atoi` rejects (and
absent or empty hints) fall through to the exponential-backoff
computation. -/
theorem calculateDelay_retryAfter (cfg : retryConfig) (attempt : Nat) (u : ℚ) :
    (∀ (h : retryHint) (n : Int), h.retryAfter ≠ "" → goAtoi h.retryAfter = some n →
        calculateDelay cfg attempt (some h) u = wrapInt64 (n * 1000000000)
        ∧ (-(2 ^ 63) ≤ n * 1000000000 → n * 1000000000 < 2 ^ 63 →
            calculateDelay cfg attempt (some h) u = n * 1000000000))
    ∧ (∀ h : retryHint, goAtoi h.retryAfter = none →
        calculateDelay cfg attempt (some h) u = expBackoffDelay cfg attempt u)
    ∧ calculateDelay cfg attempt none u = expBackoffDelay cfg attempt u := by
  refine ⟨?_, ?_, rfl⟩
  · intro h n hne hatoi
    have hmain : calculateDelay cfg attempt (some h) u = wrapInt64 (n * 1000000000) := by
      simp [calculateDelay, hne, hatoi]
    exact ⟨hmain, fun hb1 hb2 => by rw [hmain, wrapInt64_of_bounds hb1 hb2]⟩
  · intro h hatoi
    by_cases hne : h.retryAfter = ""
    · simp [calculateDelay, hne]
    · simp [calculateDelay, hne, hatoi]

theorem calculateDelay_retryAfter_witness :
    calculateDelay ⟨0, 1, 1⟩ 0 (some { retryAfter := "2" }) (1 / 3) = 2000000000
    ∧ calculateDelay ⟨0, 1, 1⟩ 0 (some { retryAfter := "10000000000" }) 0 =
        -8446744073709551616
    ∧ calculateDelay ⟨0, 4, 100⟩ 1 (some { retryAfter := "soon" }) 0 =
        expBackoffDelay ⟨0, 4, 100⟩ 1 0 := by
  refine ⟨?_, ?_, ?_⟩
  · have h := ((calculateDelay_retryAfter ⟨0, 1, 1⟩ 0 (1 / 3)).1
        { retryAfter := "2" } 2 (by decide) (by decide)).2 (by decide) (by decide)
    simpa using h
  · have h := ((calculateDelay_retryAfter ⟨0, 1, 1⟩ 0 0).1
        { retryAfter := "10000000000" } 10000000000 (by decide) (by decide)).1
    rw [h]
    decide
  · exact (calculateDelay_retryAfter ⟨0, 4, 100⟩ 1 0).2.1
      { retryAfter := "soon" } (by decide)

/-- C6 counterexample: with initial delay 1ns and max delay 1ns, at
attempt 0 with jitter draw 0 the computed delay is 0ns, strictly below
the claimed lower bound `0.5 * min(D * 2^k, maxDelay) = 0.5ns`: the
conversion of the jittered value to whole-nanosecond `time.Duration`
truncates. -/
theorem backoff_truncation_below_half :
    calculateDelay ⟨0, 1, 1⟩ 0 none 0 = 0
    ∧ ((calculateDelay ⟨0, 1, 1⟩ 0 none 0 : Int) : ℚ) <
        1 / 2 * min (((1 : Int) : ℚ) * 2 ^ (0 : Nat)) ((1 : Int) : ℚ) := by
  have h1 : calculateDelay ⟨0, 1, 1⟩ 0 none 0 = 0 := by
    show ratTruncToInt (fl ((if fl (((1 : Int)) : ℚ) * 2 ^ (0 : Nat) > fl (((1 : Int)) : ℚ)
        then fl (((1 : Int)) : ℚ)
        else fl (((1 : Int)) : ℚ) * 2 ^ (0 : Nat)) * fl (1 / 2 + fl (0 * (1 / 2))))) = 0
    have hfD : fl (((1 : Int)) : ℚ) = ((1 : Int) : ℚ) :=
      fl_intCast (by norm_num) (by norm_num)
    rw [hfD]
    rw [show ((0 : ℚ)) * (1 / 2) = 0 by ring, fl_zero, add_zero, fl_half,
      pow_zero, mul_one, if_neg (lt_irrefl _)]
    rw [show ((1 : Int) : ℚ) * (1 / 2) = (1 / 2 : ℚ) by norm_num, fl_half,
      ratTruncToInt_of_nonneg (by norm_num)]
    norm_num [Int.floor_eq_iff]
  refine ⟨h1, ?_⟩
  rw [h1]
  norm_num

/-- C6 amended: for every attempt `k` without a retry-after hint,
configuration durations below `2^53` ns (within the float64-exact
integer range; larger configurations can have the rounding of the
durations themselves push past the bound), and every actual
`rand.Float64` draw `u = m/2^53 ∈ [0,1)`, the computed delay lies in
`(0.5 * min(D * 2^k, maxDelay) - 1ns, min(D * 2^k, maxDelay)]`: the
upper bound is as claimed, while the truncation of the jittered value
to whole-nanosecond `time.Duration` can undershoot the claimed closed
lower bound by less than one nanosecond. -/
theorem backoff_delay_range (cfg : retryConfig) (k : Nat) (u : ℚ)
    (hD0 : 0 < cfg.initialDelay) (hDlt : cfg.initialDelay < 2 ^ 53)
    (hM0 : 0 ≤ cfg.maxDelay) (hMlt : cfg.maxDelay < 2 ^ 53)
    (hu : ∃ m : ℕ, m < 2 ^ 53 ∧ u = (m : ℚ) / 2 ^ 53) :
    1 / 2 * min ((cfg.initialDelay : ℚ) * 2 ^ k) (cfg.maxDelay : ℚ) - 1 <
        ((calculateDelay cfg k none u : Int) : ℚ)
    ∧ ((calculateDelay cfg k none u : Int) : ℚ) ≤
        min ((cfg.initialDelay : ℚ) * 2 ^ k) (cfg.maxDelay : ℚ) := by
  obtain ⟨m, hm, rfl⟩ := hu
  have hcd : calculateDelay cfg k none ((m : ℚ) / 2 ^ 53) =
      expBackoffDelay cfg k ((m : ℚ) / 2 ^ 53) := rfl
  rw [hcd]
  simp only [expBackoffDelay]
  have hu0 : (0 : ℚ) ≤ (m : ℚ) / 2 ^ 53 := by positivity
  have hu1 : (m : ℚ) / 2 ^ 53 < 1 := by
    rw [div_lt_one (by positivity)]
    exact_mod_cast hm
  have hfD : fl (cfg.initialDelay : ℚ) = (cfg.initialDelay : ℚ) :=
    fl_intCast (le_of_lt hD0) hDlt
  have hfM : fl (cfg.maxDelay : ℚ) = (cfg.maxDelay : ℚ) := fl_intCast hM0 hMlt
  rw [hfD, hfM, fl_u_half hm]
  set r : ℚ := fl (1 / 2 + (m : ℚ) / 2 ^ 53 * (1 / 2)) with hr
  have hr_lb : 1 / 2 ≤ r := by
    have h := fl_mono (by norm_num : (0:ℚ) ≤ 1 / 2)
      (by linarith : (1:ℚ) / 2 ≤ 1 / 2 + (m : ℚ) / 2 ^ 53 * (1 / 2))
    rwa [fl_half] at h
  have hr_ub : r ≤ 1 := by
    have h := fl_mono (by positivity : (0:ℚ) ≤ 1 / 2 + (m : ℚ) / 2 ^ 53 * (1 / 2))
      (by linarith : 1 / 2 + (m : ℚ) / 2 ^ 53 * (1 / 2) ≤ 1)
    rwa [fl_one] at h
  have hD' : (0 : ℚ) < (cfg.initialDelay : ℚ) := by exact_mod_cast hD0
  have hM' : (0 : ℚ) ≤ (cfg.maxDelay : ℚ) := by exact_mod_cast hM0
  have hb0 : (0 : ℚ) ≤ (cfg.initialDelay : ℚ) * 2 ^ k := by positivity
  have hback : (if (cfg.initialDelay : ℚ) * 2 ^ k > (cfg.maxDelay : ℚ)
      then (cfg.maxDelay : ℚ) else (cfg.initialDelay : ℚ) * 2 ^ k) =
      min ((cfg.initialDelay : ℚ) * 2 ^ k) (cfg.maxDelay : ℚ) := by
    rcases le_or_lt ((cfg.initialDelay : ℚ) * 2 ^ k) (cfg.maxDelay : ℚ) with h | h
    · rw [if_neg (not_lt.mpr h), min_eq_left h]
    · rw [if_pos h, min_eq_right (le_of_lt h)]
  rw [hback]
  set b : ℚ := min ((cfg.initialDelay : ℚ) * 2 ^ k) (cfg.maxDelay : ℚ) with hbdef
  have hbnn : 0 ≤ b := le_min hb0 hM'
  have hbInt : ∃ nb : ℤ, 0 ≤ nb ∧ nb < 2 ^ 53 ∧ b = (nb : ℚ) := by
    rcases le_total ((cfg.initialDelay : ℚ) * 2 ^ k) ((cfg.maxDelay : ℚ)) with h | h
    · refine ⟨cfg.initialDelay * 2 ^ k, by positivity, ?_, ?_⟩
      · have hle : ((cfg.initialDelay * 2 ^ k : ℤ) : ℚ) ≤ (cfg.maxDelay : ℚ) := by
          push_cast
          exact h
        have hlt : ((cfg.initialDelay * 2 ^ k : ℤ) : ℚ) < ((2 ^ 53 : ℤ) : ℚ) := by
          calc ((cfg.initialDelay * 2 ^ k : ℤ) : ℚ) ≤ (cfg.maxDelay : ℚ) := hle
            _ < ((2 ^ 53 : ℤ) : ℚ) := by exact_mod_cast hMlt
        exact_mod_cast hlt
      · rw [hbdef, min_eq_left h]
        push_cast
        ring
    · refine ⟨cfg.maxDelay, hM0, hMlt, ?_⟩
      rw [hbdef, min_eq_right h]
  obtain ⟨nb, hnb0, hnb53, hbeq⟩ := hbInt
  have hfb : fl b = b := by
    rw [hbeq]
    exact fl_intCast hnb0 hnb53
  have hfb2 : fl (b / 2) = b / 2 := by
    rw [hbeq]
    rw [show ((nb : ℚ)) / 2 = ((nb : ℚ)) * 2 ^ (-1 : ℤ) by
      rw [zpow_neg_one, ← div_eq_mul_inv]]
    exact fl_eq_self hnb0 hnb53
  have hj_ub : fl (b * r) ≤ b := by
    have h1 : b * r ≤ b := by
      calc b * r ≤ b * 1 := mul_le_mul_of_nonneg_left hr_ub hbnn
        _ = b := mul_one b
    have h2 := fl_mono (mul_nonneg hbnn (by linarith)) h1
    rwa [hfb] at h2
  have hj_lb : b / 2 ≤ fl (b * r) := by
    have h1 : b / 2 ≤ b * r := by
      have h2 : b * (1 / 2) ≤ b * r := mul_le_mul_of_nonneg_left hr_lb hbnn
      linarith
    have h3 := fl_mono (by positivity) h1
    rwa [hfb2] at h3
  have hjnn : 0 ≤ fl (b * r) := le_trans (by positivity) hj_lb
  rw [ratTruncToInt_of_nonneg hjnn]
  constructor
  · have hfl := Int.lt_floor_add_one (fl (b * r))
    linarith
  · have hfl := Int.floor_le (fl (b * r))
    linarith

theorem backoff_delay_range_witness :
    1 / 2 * min (((3 : Int) : ℚ) * 2 ^ (1 : Nat)) ((100 : Int) : ℚ) - 1 <
        ((calculateDelay ⟨0, 3, 100⟩ 1 none (1 / 2) : Int) : ℚ)
    ∧ ((calculateDelay ⟨0, 3, 100⟩ 1 none (1 / 2) : Int) : ℚ) ≤
        min (((3 : Int) : ℚ) * 2 ^ (1 : Nat)) ((100 : Int) : ℚ) :=
  backoff_delay_range ⟨0, 3, 100⟩ 1 (1 / 2) (by decide) (by decide)
    (by decide) (by decide) ⟨2 ^ 52, by norm_num, by norm_num⟩

/-! Order-theoretic facts about the key comparison used by
`Values.Encode`. -/

theorem charListLe_total : ∀ as bs : List Char,
    charListLe as bs = true ∨ charListLe bs as = true
  | [], _ => Or.inl rfl
  | _ :: _, [] => Or.inr rfl
  | a :: as, b :: bs => by
    by_cases hab : a < b
    · left
      simp [charListLe, hab]
    · by_cases hba : b < a
      · right
        simp [charListLe, hba]
      · rcases charListLe_total as bs with h | h
        · left
          simp [charListLe, hab, hba, h]
        · right
          simp [charListLe, hba, hab, h]

theorem charListLe_antisymm : ∀ as bs : List Char,
    charListLe as bs = true → charListLe bs as = true → as = bs
  | [], [] => fun _ _ => rfl
  | [], _ :: _ => fun _ h2 => by simp [charListLe] at h2
  | _ :: _, [] => fun h1 _ => by simp [charListLe] at h1
  | a :: as, b :: bs => fun h1 h2 => by
    by_cases hab : a < b
    · have hba : ¬b < a := lt_asymm hab
      simp [charListLe, hba, hab] at h2
    · by_cases hba : b < a
      · simp [charListLe, hab, hba] at h1
      · have heq : a = b := le_antisymm (le_of_not_lt hba) (le_of_not_lt hab)
        subst heq
        simp [charListLe, lt_irrefl] at h1 h2
        rw [charListLe_antisymm as bs h1 h2]

theorem charListLe_trans : ∀ as bs cs : List Char,
    charListLe as bs = true → charListLe bs cs = true → charListLe as cs = true
  | [], _, _ => fun _ _ => rfl
  | _ :: _, [], _ => fun h1 _ => by simp [charListLe] at h1
  | _ :: _, _ :: _, [] => fun _ h2 => by simp [charListLe] at h2
  | a :: as, b :: bs, c :: cs => fun h1 h2 => by
    by_cases hab : a < b <;> by_cases hbc : b < c
    · have hac : a < c := lt_trans hab hbc
      simp [charListLe, hac]
    · by_cases hcb : c < b
      · simp [charListLe, hbc, hcb] at h2
      · have heq : b = c := le_antisymm (le_of_not_lt hcb) (le_of_not_lt hbc)
        subst heq
        simp [charListLe, hab]
    · by_cases hba : b < a
      · simp [charListLe, hab, hba] at h1
      · have heq : a = b := le_antisymm (le_of_not_lt hba) (le_of_not_lt hab)
        subst heq
        simp [charListLe, hbc]
    · by_cases hba : b < a
      · simp [charListLe, hab, hba] at h1
      · by_cases hcb : c < b
        · simp [charListLe, hbc, hcb] at h2
        · have heq1 : a = b := le_antisymm (le_of_not_lt hba) (le_of_not_lt hab)
          subst heq1
          have heq2 : a = c := le_antisymm (le_of_not_lt hcb) (le_of_not_lt hbc)
          subst heq2
          simp [charListLe, lt_irrefl] at h1 h2 ⊢
          exact charListLe_trans as bs cs h1 h2

instance : IsTotal (String × List String) keyLe :=
  ⟨fun a b => charListLe_total a.1.data b.1.data⟩

instance : IsTrans (String × List String) keyLe :=
  ⟨fun a b c => charListLe_trans a.1.data b.1.data c.1.data⟩

theorem keyLe_key_eq {a b : String × List String}
    (h1 : keyLe a b) (h2 : keyLe b a) : a.1 = b.1 := by
  have h := charListLe_antisymm a.1.data b.1.data h1 h2
  exact String.toList_inj.mp h

/-- Two key-wise-sorted association lists with pairwise distinct keys
that are permutations of each other are equal: sorting is a function
of the underlying map, not of the (nondeterministic) iteration
order. -/
theorem insertionSort_eq_of_perm_nodupKeys (l₁ l₂ : List (String × List String))
    (hp : l₁.Perm l₂) (hnd : (l₁.map Prod.fst).Nodup) :
    l₁.insertionSort keyLe = l₂.insertionSort keyLe := by
  have hs₁ := List.sorted_insertionSort keyLe l₁
  have hs₂ := List.sorted_insertionSort keyLe l₂
  have hp' : (l₁.insertionSort keyLe).Perm (l₂.insertionSort keyLe) :=
    (List.perm_insertionSort keyLe l₁).trans
      (hp.trans (List.perm_insertionSort keyLe l₂).symm)
  have hnd₁ : ((l₁.insertionSort keyLe).map Prod.fst).Nodup :=
    (((List.perm_insertionSort keyLe l₁).map Prod.fst).nodup_iff).mpr hnd
  have hnd₂ : ((l₂.insertionSort keyLe).map Prod.fst).Nodup :=
    (((List.perm_insertionSort keyLe l₂).map Prod.fst).nodup_iff).mpr
      (((hp.map Prod.fst).nodup_iff).mp hnd)
  have hstrict : ∀ l : List (String × List String), List.Sorted keyLe l →
      (l.map Prod.fst).Nodup →
      List.Sorted (fun a b => keyLe a b ∧ a.1 ≠ b.1) l := by
    intro l hs hn
    have hne : l.Pairwise fun a b => a.1 ≠ b.1 := List.pairwise_map.mp hn
    exact hs.imp₂ (fun a b h1 h2 => ⟨h1, h2⟩) hne
  haveI : IsAntisymm (String × List String) (fun a b => keyLe a b ∧ a.1 ≠ b.1) :=
    ⟨fun a b h1 h2 => absurd (keyLe_key_eq h1.1 h2.1) h1.2⟩
  exact List.eq_of_perm_of_sorted hp' (hstrict _ hs₁ hnd₁) (hstrict _ hs₂ hnd₂)

/-- C7 counterexample: with a caller parameter `text=x`, the encoded
query string is `apiKey=K&text=x` — the parameters are emitted sorted
by key, so the `apiKey` parameter comes first here, not last. -/
theorem apiKey_not_appended_last :
    (Values.set ⟨[("text", ["x"])]⟩ "apiKey" "K").encode = "apiKey=K&text=x"
    ∧ flatPairs (Values.set ⟨[("text", ["x"])]⟩ "apiKey" "K").sortedEntries
        = [("apiKey", "K"), ("text", "x")]
    ∧ ([("apiKey", "K"), ("text", "x")] : List (String × String)).getLast?
        ≠ some ("apiKey", "K") := by
  refine ⟨by decide, by decide, by decide⟩

/-- C7 amended: the encoded query always contains exactly one `apiKey`
parameter, carrying the client's credential and overriding any
caller-supplied value for that key; but the parameter's position is
determined by the key-sorted emission order of `url.Values.Encode`,
not by being appended last. -/
theorem apiKey_override_sorted (v : Values) (key : String) :
    (flatPairs (Values.set v "apiKey" key).sortedEntries).filter
        (fun p => p.1 == "apiKey") = [("apiKey", key)]
    ∧ (Values.set v "apiKey" key).sortedEntries.Pairwise keyLe := by
  constructor
  · have hperm : (Values.set v "apiKey" key).sortedEntries.Perm
        (Values.set v "apiKey" key).entries := List.perm_insertionSort keyLe _
    have hfil := (hperm.flatMap_right fun e => e.2.map fun w => (e.1, w)).filter
      (fun p => p.1 == "apiKey")
    have hrhs : (flatPairs (Values.set v "apiKey" key).entries).filter
        (fun p => p.1 == "apiKey") = [("apiKey", key)] := by
      have htail : ((v.entries.filter fun e => e.1 ≠ "apiKey").flatMap
          fun e => e.2.map fun w => (e.1, w)).filter
            (fun p => p.1 == "apiKey") = [] := by
        rw [List.filter_eq_nil_iff]
        intro p hp
        obtain ⟨e, he, hpe⟩ := List.mem_flatMap.mp hp
        obtain ⟨w, _, rfl⟩ := List.mem_map.mp hpe
        have hne : e.1 ≠ "apiKey" := by
          have := List.of_mem_filter he
          simpa using this
        simpa using hne
      simp only [Values.set, flatPairs, List.flatMap_cons, List.map_cons,
        List.map_nil, List.singleton_append, List.filter_cons]
      simp only [show (("apiKey" : String) == "apiKey") = true from rfl, if_pos]
      rw [htail]
    have hfil' : ((flatPairs (Values.set v "apiKey" key).sortedEntries).filter
        fun p => p.1 == "apiKey").Perm
        ((flatPairs (Values.set v "apiKey" key).entries).filter
          fun p => p.1 == "apiKey") := hfil
    rw [hrhs] at hfil'
    exact List.perm_singleton.mp hfil'
  · exact List.sorted_insertionSort keyLe _

/-- C8: URL construction is a function of the parameter *map*: for
entry lists that are permutations of each other (with the distinct
keys a Go map guarantees), `buildURL` produces identical strings —
`Encode` sorts the keys, so the nondeterministic map iteration order
cannot leak into the query string. -/
theorem buildURL_deterministic (apiKey baseURL path : String) (v₁ v₂ : Values)
    (hp : v₁.entries.Perm v₂.entries)
    (hnd : (v₁.entries.map Prod.fst).Nodup) :
    buildURL apiKey baseURL path (some v₁) = buildURL apiKey baseURL path (some v₂) := by
  have hset : (Values.set v₁ "apiKey" apiKey).entries.Perm
      (Values.set v₂ "apiKey" apiKey).entries := by
    simp only [Values.set]
    exact (hp.filter _).cons _
  have hndset : ((Values.set v₁ "apiKey" apiKey).entries.map Prod.fst).Nodup := by
    simp only [Values.set, List.map_cons]
    rw [List.nodup_cons]
    constructor
    · intro hmem
      obtain ⟨e, he, hfst⟩ := List.mem_map.mp hmem
      have hne : e.1 ≠ "apiKey" := by
        have := List.of_mem_filter he
        simpa using this
      exact hne hfst
    · exact hnd.sublist ((List.filter_sublist _).map Prod.fst)
  have hsorted := insertionSort_eq_of_perm_nodupKeys _ _ hset hndset
  simp only [buildURL, Option.getD_some, Values.encode, Values.sortedEntries]
  rw [hsorted]

theorem buildURL_deterministic_witness :
    buildURL "K" "https://api.geoapify.com" "/v1/geocode/search"
        (some ⟨[("b", ["1"]), ("a", ["2"])]⟩)
      = buildURL "K" "https://api.geoapify.com" "/v1/geocode/search"
        (some ⟨[("a", ["2"]), ("b", ["1"])]⟩) :=
  buildURL_deterministic "K" "https://api.geoapify.com" "/v1/geocode/search"
    ⟨[("b", ["1"]), ("a", ["2"])]⟩ ⟨[("a", ["2"]), ("b", ["1"])]⟩
    (by decide) (by decide)

/-- C10: for every payload the unmarshalling accepts (starting from the
zero-valued receiver `json.Unmarshal` would populate), `Raw` holds the
exact input bytes; when the first byte after whitespace trimming is
`'['` the payload is decoded into `Results` with `ID` and `Status`
left at their zero values, and otherwise the payload is decoded as an
object into `ID` and `Status` with `Results` left nil — exactly one of
the two variants is populated. -/
theorem batchResult_unmarshal_variants
    (arrayDec : List Nat → Option (List Address))
    (objDec : List Nat → Option (String × String))
    (data : List Nat) (res : BatchResultResponse)
    (h : BatchResultResponse.UnmarshalJSON arrayDec objDec {} data = .ok res) :
    res.Raw = data
    ∧ (isArrayPayload data = true →
        ∃ xs, arrayDec data = some xs ∧ res.Results = some xs
          ∧ res.ID = "" ∧ res.Status = "")
    ∧ (isArrayPayload data = false →
        ∃ i s, objDec data = some (i, s) ∧ res.ID = i ∧ res.Status = s
          ∧ res.Results = none) := by
  unfold BatchResultResponse.UnmarshalJSON at h
  by_cases hap : isArrayPayload data = true
  · rw [if_pos hap] at h
    rcases harr : arrayDec data with _ | xs
    · rw [harr] at h
      simp at h
    · rw [harr] at h
      injection h with h'
      subst h'
      refine ⟨rfl, fun _ => ⟨xs, rfl, rfl, rfl, rfl⟩, fun hfalse => ?_⟩
      rw [hap] at hfalse
      cases hfalse
  · rw [if_neg hap] at h
    rcases hobj : objDec data with _ | ⟨i, s⟩
    · rw [hobj] at h
      simp at h
    · rw [hobj] at h
      injection h with h'
      subst h'
      exact ⟨rfl, fun htrue => absurd htrue hap, fun _ => ⟨i, s, rfl, rfl, rfl, rfl⟩⟩

theorem batchResult_unmarshal_variants_witness :
    ((BatchResultResponse.UnmarshalJSON (fun _ => some [])
          (fun _ => none) {} [32, 91, 93] = .ok
            { ID := "", Status := "", Results := some [], Raw := [32, 91, 93] })
      ∧ ({ ID := "", Status := "", Results := some [], Raw := [32, 91, 93] }
          : BatchResultResponse).Raw = [32, 91, 93])
    ∧ ((BatchResultResponse.UnmarshalJSON (fun _ => none)
          (fun _ => some ("j1", "pending")) {} [123, 125] = .ok
            { ID := "j1", Status := "pending", Results := none, Raw := [123, 125] })
      ∧ isArrayPayload [123, 125] = false
      ∧ ({ ID := "j1", Status := "pending", Results := none, Raw := [123, 125] }
          : BatchResultResponse).ID = "j1") := by
  have h1 := batchResult_unmarshal_variants (fun _ => some []) (fun _ => none)
      [32, 91, 93] { ID := "", Status := "", Results := some [], Raw := [32, 91, 93] }
      rfl
  have h2 := batchResult_unmarshal_variants (fun _ => none)
      (fun _ => some ("j1", "pending"))
      [123, 125] { ID := "j1", Status := "pending", Results := none, Raw := [123, 125] }
      rfl
  exact ⟨⟨rfl, h1.1⟩, ⟨rfl, by decide, by
    obtain ⟨i, s, _, hid, _, _⟩ := h2.2.2 (by decide)
    simp [hid]⟩⟩

end Geoapify
